import Mathlib

set_option autoImplicit false

/-!
Shallow embedding of the Smart Parking System's hand-built collection library
(`backend/DataStructures.py`) and of its rollback manager
(`backend/RollbackManager.py`), with proofs about their behaviour.

Python cell values are modelled as `Option`: `none` is Python `None` and
`some a` is a non-null value.  The fixed buffers created as
`self.items = [None] * capacity` are lists of `Option` cells whose length is
the capacity, and indices are kept exactly as in the source (for instance the
stack's `top : Int` starts at `-1`).

The file is organised with all definitions first, followed by the theorems.
-/

namespace Parking

variable {α : Type}

/-! ### The `Stack` class (array-backed bounded LIFO) -/

/-- The `Stack` class of `DataStructures.py`: a fixed buffer
`items = [None] * capacity` and an index `top` that starts at `-1`. -/
structure Stack (α : Type) where
  capacity : Nat
  items : List (Option α)
  top : Int
deriving DecidableEq

/-- `Stack.__init__(capacity)`. -/
def Stack.new (α : Type) (capacity : Nat) : Stack α :=
  { capacity := capacity, items := List.replicate capacity none, top := -1 }

/-- `Stack.push`: raises "Stack overflow" when `top >= capacity - 1`; otherwise
increments `top` and stores the item there. -/
def Stack.push (s : Stack α) (item : Option α) : Except String (Stack α) :=
  if (s.capacity : Int) - 1 ≤ s.top then Except.error "Stack overflow"
  else Except.ok { s with top := s.top + 1, items := s.items.set (s.top + 1).toNat item }

/-- `Stack.pop`: when `top < 0` it returns Python `None`; otherwise it returns
the cell at `top`, clears that cell and decrements `top`. -/
def Stack.pop (s : Stack α) : Option α × Stack α :=
  if s.top < 0 then (none, s)
  else (s.items.getD s.top.toNat none,
        { s with items := s.items.set s.top.toNat none, top := s.top - 1 })

/-- `Stack.peek`. -/
def Stack.peek (s : Stack α) : Option α :=
  if s.top < 0 then none else s.items.getD s.top.toNat none

/-- `Stack.is_empty`. -/
def Stack.is_empty (s : Stack α) : Bool := decide (s.top < 0)

/-- `Stack.size` (`top + 1`). -/
def Stack.size (s : Stack α) : Int := s.top + 1

/-- `Stack.get_recent(n)`: the guard `n <= 0 or top < 0` returns `[]`, else the
loop appends `items[top - i]` for `i in range(min(n, top + 1))`. -/
def Stack.get_recent (s : Stack α) (n : Int) : List (Option α) :=
  if n ≤ 0 ∨ s.top < 0 then []
  else (List.range (min n (s.top + 1)).toNat).map
    (fun (i : Nat) => s.items.getD (s.top - (i : Int)).toNat none)

/-- Well-formedness of the Python stack state: the buffer length is the
capacity and `top` lies in `[-1, capacity)`.  It holds for `Stack.new` and is
preserved by `push` and `pop`. -/
def Stack.inv (s : Stack α) : Prop :=
  s.items.length = s.capacity ∧ -1 ≤ s.top ∧ s.top < (s.capacity : Int)

instance (s : Stack α) : Decidable s.inv := by unfold Stack.inv; infer_instance

/-- The stack's logical contents, most recent first. -/
def Stack.abs (s : Stack α) : List (Option α) :=
  (s.items.take (s.top + 1).toNat).reverse

/-! ### The `Queue` class (bounded circular-array FIFO) -/

/-- The `Queue` class of `DataStructures.py`: circular buffer with `front`,
`rear` (starting at `-1`) and an element counter `count`. -/
structure Queue (α : Type) where
  capacity : Nat
  items : List (Option α)
  front : Nat
  rear : Int
  count : Nat
deriving DecidableEq

/-- `Queue.__init__(capacity)`. -/
def Queue.new (α : Type) (capacity : Nat) : Queue α :=
  { capacity := capacity, items := List.replicate capacity none,
    front := 0, rear := -1, count := 0 }

/-- `Queue.enqueue`: raises "Queue is full" at capacity, else writes at
`(rear + 1) % capacity` and increments `count`. -/
def Queue.enqueue (q : Queue α) (item : Option α) : Except String (Queue α) :=
  if q.capacity ≤ q.count then Except.error "Queue is full"
  else
    Except.ok { q with rear := (q.rear + 1) % (q.capacity : Int),
                       items := q.items.set ((q.rear + 1) % (q.capacity : Int)).toNat item,
                       count := q.count + 1 }

/-- `Queue.dequeue`: on empty returns Python `None`; else returns the front
cell, clears it and advances `front` circularly. -/
def Queue.dequeue (q : Queue α) : Option α × Queue α :=
  if q.count = 0 then (none, q)
  else (q.items.getD q.front none,
        { q with items := q.items.set q.front none,
                 front := (q.front + 1) % q.capacity,
                 count := q.count - 1 })

/-- `Queue.is_empty`. -/
def Queue.is_empty (q : Queue α) : Bool := decide (q.count = 0)

/-- `Queue.size`. -/
def Queue.size (q : Queue α) : Nat := q.count

/-- `Queue.get_all`: the items front to rear, read without mutation. -/
def Queue.get_all (q : Queue α) : List (Option α) :=
  if q.count = 0 then []
  else (List.range q.count).map (fun i => q.items.getD ((q.front + i) % q.capacity) none)

/-- Well-formedness of the circular queue state; the final conjunct says the
write position `(rear + 1) % capacity` is the cell just past the stored block
that starts at `front`.  It holds for `Queue.new` on positive capacity and is
preserved by `enqueue` and `dequeue`. -/
def Queue.inv (q : Queue α) : Prop :=
  q.items.length = q.capacity ∧ 0 < q.capacity ∧ q.front < q.capacity ∧
  q.count ≤ q.capacity ∧ -1 ≤ q.rear ∧ q.rear < (q.capacity : Int) ∧
  (q.rear + 1) % (q.capacity : Int) =
    ((q.front : Int) + (q.count : Int)) % (q.capacity : Int)

instance (q : Queue α) : Decidable q.inv := by unfold Queue.inv; infer_instance

/-- The queue's logical contents, front first. -/
def Queue.abs (q : Queue α) : List (Option α) :=
  (List.range q.count).map (fun i => q.items.getD ((q.front + i) % q.capacity) none)

/-! ### Interleavings of push/pop and enqueue/dequeue -/

/-- One step of an interleaving: an insertion (push/enqueue) of a Python value
or a removal (pop/dequeue). -/
inductive CollOp (α : Type) where
  | ins (x : Option α)
  | del
deriving DecidableEq

/-- Run an interleaving against the Python `Stack`, collecting every pop's
returned value; a raised "Stack overflow" aborts the run. -/
def stackRun : Stack α → List (CollOp α) → Stack α × List (Option α)
  | s, [] => (s, [])
  | s, CollOp.ins x :: rest =>
      match s.push x with
      | Except.ok s' => stackRun s' rest
      | Except.error _ => (s, [])
  | s, CollOp.del :: rest =>
      ((stackRun s.pop.2 rest).1, s.pop.1 :: (stackRun s.pop.2 rest).2)

/-- Run an interleaving against the Python `Queue`, collecting every dequeue's
returned value; a raised "Queue is full" aborts the run. -/
def queueRun : Queue α → List (CollOp α) → Queue α × List (Option α)
  | q, [] => (q, [])
  | q, CollOp.ins x :: rest =>
      match q.enqueue x with
      | Except.ok q' => queueRun q' rest
      | Except.error _ => (q, [])
  | q, CollOp.del :: rest =>
      ((queueRun q.dequeue.2 rest).1, q.dequeue.1 :: (queueRun q.dequeue.2 rest).2)

/-- The ideal LIFO reference: the state is the list of stored values, most
recent first; removal from empty yields `none`. -/
def lifoRun : List (Option α) → List (CollOp α) → List (Option α) × List (Option α)
  | l, [] => (l, [])
  | l, CollOp.ins x :: rest => lifoRun (x :: l) rest
  | [], CollOp.del :: rest =>
      ((lifoRun ([] : List (Option α)) rest).1, none :: (lifoRun ([] : List (Option α)) rest).2)
  | x :: xs, CollOp.del :: rest =>
      ((lifoRun xs rest).1, x :: (lifoRun xs rest).2)

/-- The ideal FIFO reference: the state is the list of stored values, front
first; removal from empty yields `none`. -/
def fifoRun : List (Option α) → List (CollOp α) → List (Option α) × List (Option α)
  | l, [] => (l, [])
  | l, CollOp.ins x :: rest => fifoRun (l ++ [x]) rest
  | [], CollOp.del :: rest =>
      ((fifoRun ([] : List (Option α)) rest).1, none :: (fifoRun ([] : List (Option α)) rest).2)
  | x :: xs, CollOp.del :: rest =>
      ((fifoRun xs rest).1, x :: (fifoRun xs rest).2)

/-- Does the interleaving stay within capacity `cap`, starting from `n` stored
items?  Insertions must find a free cell; removals always proceed. -/
def fitsUnder (cap : Nat) : Nat → List (CollOp α) → Bool
  | _, [] => true
  | n, CollOp.ins _ :: rest => decide (n < cap) && fitsUnder cap (n + 1) rest
  | n, CollOp.del :: rest => fitsUnder cap (n - 1) rest

/-! ### The `AdjacencyList` class (per-zone neighbor set) -/

/-- The `AdjacencyList` class of `DataStructures.py`: a linked chain of
`AdjacencyNode`s; `nodes` lists the stored zone ids from `head` onwards. -/
structure AdjacencyList (α : Type) where
  nodes : List α
  count : Nat
deriving DecidableEq

/-- `AdjacencyList.__init__`. -/
def AdjacencyList.new (α : Type) : AdjacencyList α := { nodes := [], count := 0 }

/-- `AdjacencyList.is_adjacent`: walk the chain comparing zone ids. -/
def AdjacencyList.is_adjacent [DecidableEq α] (a : AdjacencyList α) (zone_id : α) : Bool :=
  decide (zone_id ∈ a.nodes)

/-- `AdjacencyList.add_adjacent_zone`: returns `False` on a duplicate,
otherwise links a new node in front of `head` and increments `count`. -/
def AdjacencyList.add_adjacent_zone [DecidableEq α] (a : AdjacencyList α) (zone_id : α) :
    AdjacencyList α × Bool :=
  if a.is_adjacent zone_id then (a, false)
  else ({ nodes := zone_id :: a.nodes, count := a.count + 1 }, true)

/-- `AdjacencyList.get_adjacent_zones` (and `__iter__`): the zone ids in chain
order, from `head` onwards. -/
def AdjacencyList.get_adjacent_zones (a : AdjacencyList α) : List α := a.nodes

/-- A sequence of `add_adjacent_zone` calls, in call order. -/
def AdjacencyList.add_all [DecidableEq α] (a : AdjacencyList α) (l : List α) : AdjacencyList α :=
  l.foldl (fun acc z => (acc.add_adjacent_zone z).1) a

/-! ### The `Array` class (fixed-capacity array), named `Arr` here -/

/-- The `Array` class of `DataStructures.py` (named `Arr` to avoid the
prelude's `Array`): fixed buffer plus an element counter `size`. -/
structure Arr (α : Type) where
  capacity : Nat
  items : List (Option α)
  size : Nat
deriving DecidableEq

/-- `Array.__init__(capacity)`. -/
def Arr.new (α : Type) (capacity : Nat) : Arr α :=
  { capacity := capacity, items := List.replicate capacity none, size := 0 }

/-- `Array.append`: raises "Array is full" at capacity, else stores at `size`. -/
def Arr.append (a : Arr α) (item : Option α) : Except String (Arr α) :=
  if a.capacity ≤ a.size then Except.error "Array is full"
  else Except.ok { a with items := a.items.set a.size item, size := a.size + 1 }

/-- The search loop of `Array.remove` / `Array.find`:
`for i in range(self.size): if self.items[i] == item: ...`. -/
def Arr.findFrom [DecidableEq α] (a : Arr α) (item : Option α) (i : Nat) : Option Nat :=
  if h : i < a.size then
    if a.items.getD i none = item then some i else a.findFrom item (i + 1)
  else none
termination_by a.size - i

/-- The inner shift of `Array.remove`:
`for j in range(i, size - 1): items[j] = items[j + 1]`. -/
def shiftLeft (l : List (Option α)) (j stop : Nat) : List (Option α) :=
  if j < stop then shiftLeft (l.set j (l.getD (j + 1) none)) (j + 1) stop else l
termination_by stop - j

/-- `Array.remove(item)`: find the first matching index, shift the later
elements left, clear the last live cell, decrement `size`, return `True`;
return `False` when no cell matches. -/
def Arr.remove [DecidableEq α] (a : Arr α) (item : Option α) : Arr α × Bool :=
  match a.findFrom item 0 with
  | some i =>
      ({ a with items := (shiftLeft a.items i (a.size - 1)).set (a.size - 1) none,
                size := a.size - 1 }, true)
  | none => (a, false)

/-- Well-formedness of the array state. -/
def Arr.inv (a : Arr α) : Prop := a.items.length = a.capacity ∧ a.size ≤ a.capacity

instance (a : Arr α) : Decidable a.inv := by unfold Arr.inv; infer_instance

/-- The array's logical contents, in storage order. -/
def Arr.abs (a : Arr α) : List (Option α) := a.items.take a.size

/-- Removal of the first occurrence of a value, the specification's wording of
what `Array.remove` does to the logical contents. -/
def eraseFirst {beta : Type} [DecidableEq beta] : List beta → beta → List beta
  | [], _ => []
  | y :: ys, x => if y = x then ys else y :: eraseFirst ys x

/-- First index of a value in a list, used to describe `Arr.findFrom`. -/
def firstIdx {beta : Type} [DecidableEq beta] : List beta → beta → Option Nat
  | [], _ => none
  | y :: ys, x => if y = x then some 0 else (firstIdx ys x).map (fun j => j + 1)

/-! ### The `HashTable` class (chained hash map) -/

/-- The `HashTable` class of `DataStructures.py`: `capacity` buckets, each a
chain of `HashNode`s modelled head first as a list of key/value pairs; stored
values are Python values (`Option V`).  The Python hash
`hash(str(key)) % capacity` is modelled by an arbitrary deterministic
function `h : kappa → Nat` reduced modulo the capacity. -/
structure HashTable (kappa V : Type) where
  capacity : Nat
  size : Nat
  buckets : List (List (kappa × Option V))
deriving DecidableEq

variable {kappa V : Type}

/-- `HashTable.__init__(capacity)`. -/
def HashTable.new (kappa V : Type) (capacity : Nat) : HashTable kappa V :=
  { capacity := capacity, size := 0, buckets := List.replicate capacity [] }

/-- `HashTable._hash`. -/
def hashIdx (h : kappa → Nat) (t : HashTable kappa V) (k : kappa) : Nat :=
  h k % t.capacity

/-- The search part of `HashTable.get`: walk a chain for a key and return the
stored Python value, `none` when the key is absent. -/
def chainGet [DecidableEq kappa] : List (kappa × Option V) → kappa → Option V
  | [], _ => none
  | (k', v) :: rest, k => if k' = k then v else chainGet rest k

/-- The walk of `HashTable.insert`: replace the value at the first node whose
key matches, or report `none` when no node matches. -/
def chainReplace [DecidableEq kappa] :
    List (kappa × Option V) → kappa → Option V → Option (List (kappa × Option V))
  | [], _, _ => none
  | (k', v') :: rest, k, v =>
      if k' = k then some ((k', v) :: rest)
      else (chainReplace rest k v).map (fun r => (k', v') :: r)

/-- The walk of `HashTable.delete`: unlink the first node whose key matches,
or report `none` when no node matches. -/
def chainDelete [DecidableEq kappa] :
    List (kappa × Option V) → kappa → Option (List (kappa × Option V))
  | [], _ => none
  | (k', v') :: rest, k =>
      if k' = k then some rest
      else (chainDelete rest k).map (fun r => (k', v') :: r)

/-- `HashTable.insert`: upsert — replace the value in place when the key is
already chained, else link a new node at the head of its bucket and increment
`size`. -/
def HashTable.insert [DecidableEq kappa] (h : kappa → Nat) (t : HashTable kappa V)
    (k : kappa) (v : Option V) : HashTable kappa V :=
  match chainReplace (t.buckets.getD (hashIdx h t k) []) k v with
  | some b => { t with buckets := t.buckets.set (hashIdx h t k) b }
  | none =>
      { t with buckets := t.buckets.set (hashIdx h t k) ((k, v) :: t.buckets.getD (hashIdx h t k) []),
               size := t.size + 1 }

/-- `HashTable.get`. -/
def HashTable.get [DecidableEq kappa] (h : kappa → Nat) (t : HashTable kappa V)
    (k : kappa) : Option V :=
  chainGet (t.buckets.getD (hashIdx h t k) []) k

/-- `HashTable.contains` (`self.get(key) is not None`). -/
def HashTable.contains [DecidableEq kappa] (h : kappa → Nat) (t : HashTable kappa V)
    (k : kappa) : Bool :=
  (t.get h k).isSome

/-- `HashTable.delete`. -/
def HashTable.delete [DecidableEq kappa] (h : kappa → Nat) (t : HashTable kappa V)
    (k : kappa) : HashTable kappa V × Bool :=
  match chainDelete (t.buckets.getD (hashIdx h t k) []) k with
  | some b => ({ t with buckets := t.buckets.set (hashIdx h t k) b, size := t.size - 1 }, true)
  | none => (t, false)

/-- `HashTable.keys`: all keys, bucket by bucket, chain order inside each. -/
def HashTable.keys (t : HashTable kappa V) : List kappa :=
  (t.buckets.map (fun b => b.map Prod.fst)).flatten

/-- `HashTable.values`. -/
def HashTable.values (t : HashTable kappa V) : List (Option V) :=
  (t.buckets.map (fun b => b.map Prod.snd)).flatten

/-- `HashTable.items`. -/
def HashTable.items (t : HashTable kappa V) : List (kappa × Option V) :=
  t.buckets.flatten

/-- A sequence of inserts, in call order. -/
def HashTable.insert_all [DecidableEq kappa] (h : kappa → Nat) (t : HashTable kappa V)
    (ps : List (kappa × Option V)) : HashTable kappa V :=
  ps.foldl (fun acc p => acc.insert h p.1 p.2) t

/-- The most recently inserted value for a key in a sequence of inserts; the
specification's wording for what a later `get` must return. -/
def lastVal [DecidableEq kappa] : List (kappa × Option V) → kappa → Option (Option V)
  | [], _ => none
  | p :: ps, k =>
      match lastVal ps k with
      | some w => some w
      | none => if p.1 = k then some p.2 else none

/-- Basic well-formedness of the table: the bucket array has `capacity`
entries and the capacity is positive (Python's `% capacity` would raise on
zero). -/
def HashTable.winv (t : HashTable kappa V) : Prop :=
  t.buckets.length = t.capacity ∧ 0 < t.capacity

instance (t : HashTable kappa V) : Decidable t.winv := by
  unfold HashTable.winv; infer_instance

/-- The chained-table invariant: well-formed bucket array, `size` equal to the
total node count, every node chained in the bucket its key hashes to, and no
key twice within a bucket. -/
def HashTable.hinv [DecidableEq kappa] (h : kappa → Nat) (t : HashTable kappa V) : Prop :=
  t.buckets.length = t.capacity ∧ 0 < t.capacity ∧
  t.size = (t.buckets.map List.length).sum ∧
  (∀ i, i < t.buckets.length → ∀ p ∈ t.buckets.getD i [], h p.1 % t.capacity = i) ∧
  (∀ i, i < t.buckets.length → ((t.buckets.getD i []).map Prod.fst).Nodup)

instance [DecidableEq kappa] (h : kappa → Nat) (t : HashTable kappa V) :
    Decidable (t.hinv h) := by
  unfold HashTable.hinv; infer_instance

/-! ### The `RollbackManager` class -/

/-- The fields of a `ParkingRequest` that `RollbackManager.record_operation`
reads when it builds an operation record. -/
structure Request where
  request_id : String
  vehicle_id : String
  allocated_slot : Option String
  allocated_zone : Option String
deriving DecidableEq

/-- The operation dict built by `RollbackManager.record_operation`: operation
type, the affected ids and the pre-mutation images of the slot's availability
and the request's state. -/
structure Operation where
  type : String
  request_id : String
  vehicle_id : String
  slot_id : Option String
  zone_id : Option String
  slot_previous_state : Option Bool
  request_previous_state : String
deriving DecidableEq

/-- `RollbackManager.__init__(max_history)`: the history is a bounded `Stack`. -/
structure RollbackManager where
  operation_history : Stack Operation
  max_history : Nat
deriving DecidableEq

/-- `RollbackManager.__init__`. -/
def RollbackManager.new (max_history : Nat) : RollbackManager :=
  { operation_history := Stack.new Operation max_history, max_history := max_history }

/-- The operation dict literal inside `RollbackManager.record_operation`. -/
def RollbackManager.make_op (operation_type : String) (request : Request)
    (slot_state : Option Bool) (request_state : String) : Operation :=
  { type := operation_type, request_id := request.request_id,
    vehicle_id := request.vehicle_id, slot_id := request.allocated_slot,
    zone_id := request.allocated_zone, slot_previous_state := slot_state,
    request_previous_state := request_state }

/-- `RollbackManager.record_operation`: push the operation; the
`try ... except Exception: pass` swallows a full-stack overflow, leaving the
manager unchanged. -/
def RollbackManager.record_operation (m : RollbackManager) (operation_type : String)
    (request : Request) (slot_state : Option Bool) (request_state : String) :
    RollbackManager :=
  match m.operation_history.push
      (some (RollbackManager.make_op operation_type request slot_state request_state)) with
  | Except.ok st => { m with operation_history := st }
  | Except.error _ => m

/-- Modelled from the spec: the slice of `ParkingSystem` state that rollback's
inverse replay touches — the lifecycle state of each request (keyed by request
id) and the availability of each slot (keyed by slot id).  `ParkingSystem.py`
itself is not among the source files; §4.5 of the specification states that
inversion is a pure restore of the before-images stored in each Operation. -/
structure SystemState where
  request_states : List (String × String)
  slot_available : List (String × Bool)
deriving DecidableEq

/-- Replace the value bound to a key in an association list (no change when
the key is absent). -/
def assocSet {V' : Type} : List (String × V') → String → V' → List (String × V')
  | [], _, _ => []
  | (k', v') :: rest, k, v =>
      if k' = k then (k, v) :: rest else (k', v') :: assocSet rest k v

/-- Modelled from the spec: applying the inverse of one Operation restores the
recorded before-images — the request returns to `request_previous_state` and,
when a slot was involved, its availability returns to `slot_previous_state`
(§4.5: "store full before-images in each Operation ... inversion is a pure
restore"). -/
def applyInverse (op : Operation) (sys : SystemState) : SystemState :=
  { request_states := assocSet sys.request_states op.request_id op.request_previous_state,
    slot_available :=
      match op.slot_id, op.slot_previous_state with
      | some sid, some st => assocSet sys.slot_available sid st
      | _, _ => sys.slot_available }

/-- The loop of `RollbackManager.rollback`: pop; `if operation is None: break`;
else apply the inverse and append `(type, request_id)` to the undone list. -/
def rollbackLoop : Nat → Stack Operation → SystemState → List (String × String) →
    List (String × String) × Stack Operation × SystemState
  | 0, st, sys, acc => (acc, st, sys)
  | n + 1, st, sys, acc =>
      match st.pop.1, st.pop.2 with
      | none, st' => (acc, st', sys)
      | some op, st' =>
          rollbackLoop n st' (applyInverse op sys) (acc ++ [(op.type, op.request_id)])

/-- `RollbackManager.rollback(k, parking_system)`: `k <= 0` or an empty
history returns `[]` at once; otherwise pop `min(k, size)` operations, undoing
each.  Returns the undone `(type, request_id)` list in the order applied,
together with the mutated manager and system. -/
def RollbackManager.rollback (m : RollbackManager) (k : Int) (sys : SystemState) :
    List (String × String) × RollbackManager × SystemState :=
  if k ≤ 0 ∨ m.operation_history.is_empty = true then ([], m, sys)
  else
    ((rollbackLoop (min k m.operation_history.size).toNat m.operation_history sys []).1,
     { m with operation_history :=
        (rollbackLoop (min k m.operation_history.size).toNat m.operation_history sys []).2.1 },
     (rollbackLoop (min k m.operation_history.size).toNat m.operation_history sys []).2.2)

/-- `RollbackManager.get_recent_operations(n)`: a read-only peek delegating to
`Stack.get_recent`. -/
def RollbackManager.get_recent_operations (m : RollbackManager) (n : Int) :
    List (Option Operation) :=
  m.operation_history.get_recent n

/-- `RollbackManager.get_history_size`. -/
def RollbackManager.get_history_size (m : RollbackManager) : Int :=
  m.operation_history.size

/-! ### Concrete fixtures used by the witnesses -/

/-- A sample request, as built by `create_request` and later allocated. -/
def reqW : Request :=
  { request_id := "R1", vehicle_id := "V1",
    allocated_slot := some "S1", allocated_zone := some "ZA" }

/-- The operation recorded for a successful allocate of `reqW`. -/
def opAllocW : Operation := RollbackManager.make_op "allocate" reqW (some true) "REQUESTED"

/-- The operation recorded for a successful occupy of `reqW`. -/
def opOccupyW : Operation := RollbackManager.make_op "occupy" reqW (some false) "ALLOCATED"

/-- A sample system state after allocate and occupy of `reqW`. -/
def sysW : SystemState :=
  { request_states := [("R1", "OCCUPIED")], slot_available := [("S1", false)] }

/-- A sample manager whose history holds the allocate then the occupy. -/
def mgrW : RollbackManager :=
  { operation_history := Stack.mk 5 [some opAllocW, some opOccupyW, none, none, none] 1,
    max_history := 5 }

/-- A sample hash table (hash function `id`, capacity 3) holding one entry. -/
def htW : HashTable Nat Nat :=
  { capacity := 3, size := 1, buckets := [[], [(1, some 5)], []] }

/-! ## Theorems -/

/-! ### List helper lemmas -/

theorem getD_set_self {beta : Type} (l : List beta) (n : Nat) (x d : beta)
    (h : n < l.length) : (l.set n x).getD n d = x := by
  rw [List.getD_eq_getElem?_getD, List.getElem?_set_self h]
  rfl

theorem getD_set_ne {beta : Type} (l : List beta) (i j : Nat) (x d : beta)
    (h : i ≠ j) : (l.set i x).getD j d = l.getD j d := by
  rw [List.getD_eq_getElem?_getD, List.getElem?_set_ne h, ← List.getD_eq_getElem?_getD]

theorem take_set_of_le {beta : Type} (l : List beta) (i n : Nat) (x : beta)
    (h : n ≤ i) : (l.set i x).take n = l.take n := by
  induction l generalizing i n with
  | nil => simp
  | cons y ys ih =>
    cases n with
    | zero => simp
    | succ n =>
      cases i with
      | zero => omega
      | succ i =>
        simp only [List.set_cons_succ, List.take_succ_cons]
        rw [ih i n (by omega)]

theorem take_succ_getD {beta : Type} (l : List beta) (n : Nat) (d : beta)
    (h : n < l.length) : l.take (n + 1) = l.take n ++ [l.getD n d] := by
  rw [List.take_succ, List.getD_eq_getElem?_getD, List.getElem?_eq_getElem h]
  rfl

theorem take_set_succ {beta : Type} (l : List beta) (n : Nat) (x : beta)
    (h : n < l.length) : (l.set n x).take (n + 1) = l.take n ++ [x] := by
  rw [take_succ_getD (l.set n x) n x (by simpa using h),
    take_set_of_le l n n x (Nat.le_refl n), getD_set_self l n x x h]

theorem drop_set_of_lt {beta : Type} (l : List beta) (i m : Nat) (x : beta)
    (h : i < m) : (l.set i x).drop m = l.drop m := by
  induction l generalizing i m with
  | nil => simp
  | cons y ys ih =>
    cases i with
    | zero =>
      cases m with
      | zero => omega
      | succ m => simp
    | succ i =>
      cases m with
      | zero => omega
      | succ m =>
        simp only [List.set_cons_succ, List.drop_succ_cons]
        exact ih i m (by omega)

/-- Replacing one entry of a list changes a mapped sum by swapping the images
of the old and the new entry. -/
theorem sum_map_set {beta : Type} (f : beta → Nat) (l : List beta) (i : Nat)
    (x d : beta) (h : i < l.length) :
    ((l.set i x).map f).sum + f (l.getD i d) = (l.map f).sum + f x := by
  induction l generalizing i with
  | nil => simp at h
  | cons y ys ih =>
    cases i with
    | zero => simp [Nat.add_comm, Nat.add_left_comm]
    | succ i =>
      simp only [List.set_cons_succ, List.map_cons, List.sum_cons, List.getD_cons_succ]
      have := ih i (by simpa using h)
      omega

/-- The reverse of a prefix, written elementwise from the back. -/
theorem reverse_take_eq_map_getD {beta : Type} (l : List beta) (n : Nat) (d : beta)
    (h : n ≤ l.length) :
    (l.take n).reverse = (List.range n).map (fun i => l.getD (n - 1 - i) d) := by
  induction n with
  | zero => simp
  | succ n ih =>
    rw [take_succ_getD l n d (by omega), List.reverse_append, List.range_succ_eq_map,
      List.map_cons, List.map_map]
    simp only [List.reverse_cons, List.reverse_nil, List.nil_append, List.singleton_append,
      Nat.add_sub_cancel, Nat.sub_zero]
    congr 1
    rw [ih (by omega)]
    apply List.map_congr_left
    intro i _
    simp only [Function.comp_apply, Nat.succ_eq_add_one]
    congr 1
    omega

/-! ### Stack lemmas -/

theorem stack_abs_length (s : Stack α) (h : s.inv) :
    s.abs.length = (s.top + 1).toNat := by
  obtain ⟨h1, h2, h3⟩ := h
  simp only [Stack.abs, List.length_reverse, List.length_take]
  omega

theorem stack_new_inv (capacity : Nat) : (Stack.new α capacity).inv := by
  refine ⟨by simp [Stack.new], by simp [Stack.new], ?_⟩
  simp only [Stack.new]
  omega

theorem stack_new_abs (capacity : Nat) : (Stack.new α capacity).abs = [] := by
  simp [Stack.new, Stack.abs]

theorem Stack.push_ok (s : Stack α) (x : Option α) (h : s.inv)
    (hlt : s.size < (s.capacity : Int)) :
    ∃ s', s.push x = Except.ok s' ∧ s'.inv ∧ s'.abs = x :: s.abs ∧
      s'.capacity = s.capacity := by
  obtain ⟨h1, h2, h3⟩ := h
  unfold Stack.size at hlt
  have hc : ¬ ((s.capacity : Int) - 1 ≤ s.top) := by omega
  refine ⟨{ s with top := s.top + 1, items := s.items.set (s.top + 1).toNat x },
    by rw [Stack.push, if_neg hc],
    ⟨by show (s.items.set (s.top + 1).toNat x).length = s.capacity; simpa using h1,
     by show (-1 : Int) ≤ s.top + 1; omega,
     by show s.top + 1 < (s.capacity : Int); omega⟩, ?_, rfl⟩
  show ((s.items.set (s.top + 1).toNat x).take (s.top + 1 + 1).toNat).reverse = x :: s.abs
  have hn : (s.top + 1 + 1).toNat = (s.top + 1).toNat + 1 := by omega
  have hlen : (s.top + 1).toNat < s.items.length := by omega
  rw [hn, take_set_succ s.items (s.top + 1).toNat x hlen, List.reverse_append]
  rfl

theorem Stack.push_full (s : Stack α) (x : Option α)
    (h : (s.capacity : Int) ≤ s.size) :
    s.push x = Except.error "Stack overflow" := by
  unfold Stack.size at h
  rw [Stack.push, if_pos (by omega)]

theorem Stack.pop_empty (s : Stack α) (h : s.top < 0) : s.pop = (none, s) := by
  rw [Stack.pop, if_pos h]

theorem Stack.pop_cons (s : Stack α) (x : Option α) (r : List (Option α))
    (h : s.inv) (habs : s.abs = x :: r) :
    s.pop.1 = x ∧ s.pop.2.inv ∧ s.pop.2.abs = r ∧ s.pop.2.capacity = s.capacity := by
  obtain ⟨h1, h2, h3⟩ := h
  have htop : 0 ≤ s.top := by
    by_contra hlt
    have hz : (s.top + 1).toNat = 0 := by omega
    rw [Stack.abs, hz] at habs
    simp at habs
  have hn : (s.top + 1).toNat = s.top.toNat + 1 := by omega
  have hlen : s.top.toNat < s.items.length := by omega
  have hdecomp : s.abs = s.items.getD s.top.toNat none ::
      (s.items.take s.top.toNat).reverse := by
    rw [Stack.abs, hn, take_succ_getD s.items s.top.toNat none hlen, List.reverse_append]
    rfl
  have hxr := habs.symm.trans hdecomp
  injection hxr with hx hr
  rw [Stack.pop, if_neg (by omega)]
  refine ⟨hx.symm,
    ⟨by show (s.items.set s.top.toNat none).length = s.capacity; simpa using h1,
     by show (-1 : Int) ≤ s.top - 1; omega,
     by show s.top - 1 < (s.capacity : Int); omega⟩, ?_, rfl⟩
  show ((s.items.set s.top.toNat none).take (s.top - 1 + 1).toNat).reverse = r
  have hm : (s.top - 1 + 1).toNat = s.top.toNat := by omega
  rw [hm, take_set_of_le s.items s.top.toNat s.top.toNat none (Nat.le_refl _), ← hr]

/-! ### Queue lemmas -/

theorem queue_abs_length (q : Queue α) : q.abs.length = q.count := by
  simp [Queue.abs]

theorem queue_new_inv (capacity : Nat) (h : 0 < capacity) :
    (Queue.new α capacity).inv := by
  refine ⟨by simp [Queue.new], by simpa [Queue.new] using h, by simpa [Queue.new] using h,
    by simp [Queue.new], by simp [Queue.new], ?_, ?_⟩
  · simp only [Queue.new]
    omega
  · simp [Queue.new]

theorem queue_new_abs (capacity : Nat) : (Queue.new α capacity).abs = [] := by
  simp [Queue.new, Queue.abs]

theorem Queue.enqueue_ok (q : Queue α) (x : Option α) (h : q.inv)
    (hlt : q.count < q.capacity) :
    ∃ q', q.enqueue x = Except.ok q' ∧ q'.inv ∧ q'.abs = q.abs ++ [x] ∧
      q'.capacity = q.capacity := by
  obtain ⟨h1, h2, h3, h4, h5, h6, h7⟩ := h
  have hcap : ((q.capacity : Int)) ≠ 0 := by omega
  have hr0 : 0 ≤ (q.rear + 1) % (q.capacity : Int) := Int.emod_nonneg _ hcap
  have hrlt : (q.rear + 1) % (q.capacity : Int) < (q.capacity : Int) :=
    Int.emod_lt_of_pos _ (by omega)
  have hw : ((q.rear + 1) % (q.capacity : Int)).toNat =
      (q.front + q.count) % q.capacity := by
    have hcast : (q.rear + 1) % (q.capacity : Int) =
        (((q.front + q.count) % q.capacity : Nat) : Int) := by
      rw [h7]
      push_cast
      rfl
    rw [hcast]
    exact Int.toNat_natCast _
  have hwlt : (q.front + q.count) % q.capacity < q.capacity := Nat.mod_lt _ h2
  refine ⟨{ q with rear := (q.rear + 1) % (q.capacity : Int), items := q.items.set ((q.rear + 1) % (q.capacity : Int)).toNat x, count := q.count + 1 },
    by rw [Queue.enqueue, if_neg (by omega)], ?_, ?_, rfl⟩
  · refine ⟨by simpa using h1, h2, h3, by show q.count + 1 ≤ q.capacity; omega,
      by show (-1 : Int) ≤ (q.rear + 1) % (q.capacity : Int); omega, hrlt, ?_⟩
    show ((q.rear + 1) % (q.capacity : Int) + 1) % (q.capacity : Int) =
      ((q.front : Int) + ((q.count + 1 : Nat) : Int)) % (q.capacity : Int)
    rw [h7, Int.emod_add_emod]
    push_cast
    ring_nf
  · show (List.range (q.count + 1)).map
        (fun i => (q.items.set ((q.rear + 1) % (q.capacity : Int)).toNat x).getD
          ((q.front + i) % q.capacity) none) = q.abs ++ [x]
    rw [List.range_succ, List.map_append]
    congr 1
    · apply List.map_congr_left
      intro i hi
      have hilt : i < q.count := List.mem_range.mp hi
      rw [hw]
      apply getD_set_ne
      intro hcontra
      have hmodeq : q.front + q.count ≡ q.front + i [MOD q.capacity] := hcontra
      have := Nat.ModEq.add_left_cancel' q.front hmodeq
      have hc2 : q.count % q.capacity = i % q.capacity := this
      rw [Nat.mod_eq_of_lt hlt, Nat.mod_eq_of_lt (by omega)] at hc2
      omega
    · simp only [List.map_cons, List.map_nil, hw]
      rw [getD_set_self _ _ _ _ (by omega)]

theorem Queue.dequeue_empty (q : Queue α) (h : q.count = 0) :
    q.dequeue = (none, q) := by
  rw [Queue.dequeue, if_pos h]

theorem Queue.dequeue_cons (q : Queue α) (x : Option α) (r : List (Option α))
    (h : q.inv) (habs : q.abs = x :: r) :
    q.dequeue.1 = x ∧ q.dequeue.2.inv ∧ q.dequeue.2.abs = r ∧
      q.dequeue.2.capacity = q.capacity := by
  obtain ⟨h1, h2, h3, h4, h5, h6, h7⟩ := h
  have hcnt : q.count ≠ 0 := by
    intro hz
    rw [Queue.abs, hz] at habs
    simp at habs
  obtain ⟨c, hc⟩ : ∃ c, q.count = c + 1 := ⟨q.count - 1, by omega⟩
  have hdecomp : q.abs = q.items.getD q.front none ::
      (List.range c).map (fun i => q.items.getD ((q.front + (i + 1)) % q.capacity) none) := by
    rw [Queue.abs, hc, List.range_succ_eq_map, List.map_cons, List.map_map]
    simp only [Function.comp_def, Nat.succ_eq_add_one, Nat.add_zero, Nat.mod_eq_of_lt h3]
  have hxr := habs.symm.trans hdecomp
  injection hxr with hx hr
  rw [Queue.dequeue, if_neg hcnt]
  refine ⟨hx.symm, ?_, ?_, rfl⟩
  · refine ⟨by simpa using h1, h2, Nat.mod_lt _ h2,
      by show q.count - 1 ≤ q.capacity; omega, h5, h6, ?_⟩
    show (q.rear + 1) % (q.capacity : Int) =
      ((((q.front + 1) % q.capacity : Nat) : Int) + ((q.count - 1 : Nat) : Int)) %
        (q.capacity : Int)
    rw [h7]
    have hcast1 : (((q.front + 1) % q.capacity : Nat) : Int) =
        ((q.front : Int) + 1) % (q.capacity : Int) := by push_cast; rfl
    rw [hcast1, Int.emod_add_emod]
    have hcast2 : ((q.count - 1 : Nat) : Int) = (q.count : Int) - 1 := by omega
    rw [hcast2]
    ring_nf
  · show (List.range (q.count - 1)).map
        (fun i => (q.items.set q.front none).getD
          (((q.front + 1) % q.capacity + i) % q.capacity) none) = r
    rw [hr, hc]
    simp only [Nat.add_sub_cancel]
    apply List.map_congr_left
    intro i hi
    have hilt : i < c := List.mem_range.mp hi
    have hidx : ((q.front + 1) % q.capacity + i) % q.capacity =
        (q.front + (i + 1)) % q.capacity := by
      conv_rhs => rw [show q.front + (i + 1) = q.front + 1 + i by omega]
      rw [Nat.mod_add_mod]
    rw [hidx]
    apply getD_set_ne
    intro hcontra
    have hlt2 : i + 1 < q.capacity := by omega
    have hmodeq : q.front + (i + 1) ≡ q.front + 0 [MOD q.capacity] := by
      show (q.front + (i + 1)) % q.capacity = (q.front + 0) % q.capacity
      rw [hcontra.symm]
      · rw [Nat.add_zero, Nat.mod_eq_of_lt h3]
    have := Nat.ModEq.add_left_cancel' q.front hmodeq
    have hc2 : (i + 1) % q.capacity = 0 % q.capacity := this
    rw [Nat.mod_eq_of_lt hlt2, Nat.zero_mod] at hc2
    omega

/-! ### C1: what pop/dequeue return on empty collections -/

/-- C1 counterexample: at concrete inputs, `Stack.pop` on the empty stack and
`Stack.pop` after legitimately pushing a stored `None` item return the very
same bare `None`, and likewise for `Queue.dequeue` — the "empty" outcome is
not a tagged result distinguishable from a stored null value. -/
theorem pop_dequeue_tagged_empty_cex :
    (Stack.new Nat 3).pop.1 = none ∧
    (Stack.new Nat 3).push none = Except.ok (Stack.mk 3 [none, none, none] 0) ∧
    (Stack.mk 3 [none, none, none] 0 : Stack Nat).pop.1 = none ∧
    (Queue.new Nat 3).dequeue.1 = none ∧
    (Queue.new Nat 3).enqueue none = Except.ok (Queue.mk 3 [none, none, none] 0 0 1) ∧
    (Queue.mk 3 [none, none, none] 0 0 1 : Queue Nat).dequeue.1 = none :=
  ⟨rfl, rfl, rfl, rfl, rfl, rfl⟩

/-- C1 (amended): `pop` on any empty stack and `dequeue` on any empty queue
return the bare sentinel `None` with the collection unchanged; popping a stack
that legitimately stores `None` on top returns the identical `None`, so the
outcome is not distinguishable from stored data. -/
theorem pop_dequeue_empty_sentinel (s t : Stack α) (q : Queue α)
    (r : List (Option α)) (hs : s.top < 0) (ht : t.inv) (htabs : t.abs = none :: r)
    (hq : q.count = 0) :
    s.pop = (none, s) ∧ t.pop.1 = none ∧ q.dequeue = (none, q) :=
  ⟨Stack.pop_empty s hs, (Stack.pop_cons t none r ht htabs).1, Queue.dequeue_empty q hq⟩

/-- C1 witness. -/
theorem pop_dequeue_empty_sentinel_witness :
    (Stack.new Nat 2).pop = (none, Stack.new Nat 2) ∧
    (Stack.mk 2 [none, none] 0 : Stack Nat).pop.1 = none ∧
    (Queue.new Nat 2).dequeue = (none, Queue.new Nat 2) :=
  pop_dequeue_empty_sentinel (Stack.new Nat 2) (Stack.mk 2 [none, none] 0)
    (Queue.new Nat 2) [] (by decide) (by decide) (by decide) (by decide)

/-! ### C7: LIFO/FIFO order across arbitrary interleavings -/

theorem stackRun_lifo (ops : List (CollOp α)) :
    ∀ s : Stack α, s.inv → fitsUnder s.capacity s.abs.length ops = true →
      (stackRun s ops).2 = (lifoRun s.abs ops).2 ∧
      (stackRun s ops).1.abs = (lifoRun s.abs ops).1 ∧
      (stackRun s ops).1.inv ∧ (stackRun s ops).1.capacity = s.capacity := by
  induction ops with
  | nil =>
    intro s hs _
    refine ⟨?_, ?_, ?_, ?_⟩ <;> simp only [stackRun, lifoRun]
    exact hs
  | cons op rest ih =>
    intro s hs hfit
    cases op with
    | ins x =>
      simp only [fitsUnder, Bool.and_eq_true, decide_eq_true_eq] at hfit
      obtain ⟨hn, hfit'⟩ := hfit
      have hsz : s.size < (s.capacity : Int) := by
        have hl := stack_abs_length s hs
        obtain ⟨hh1, hh2, hh3⟩ := hs
        unfold Stack.size
        omega
      obtain ⟨s', hpush, hinv', habs', hcap'⟩ := s.push_ok x hs hsz
      have hfit2 : fitsUnder s'.capacity s'.abs.length rest = true := by
        rw [hcap', habs']
        simpa using hfit'
      obtain ⟨o1, o2, o3, o4⟩ := ih s' hinv' hfit2
      simp only [stackRun, lifoRun, hpush]
      rw [← habs']
      exact ⟨o1, o2, o3, o4.trans hcap'⟩
    | del =>
      simp only [fitsUnder] at hfit
      cases habs : s.abs with
      | nil =>
        have htop : s.top < 0 := by
          have hl := stack_abs_length s hs
          rw [habs] at hl
          obtain ⟨hh1, hh2, hh3⟩ := hs
          simp at hl
          omega
        have hpop := Stack.pop_empty s htop
        have hfit2 : fitsUnder s.capacity s.abs.length rest = true := by
          rw [habs] at hfit ⊢
          simpa using hfit
        obtain ⟨o1, o2, o3, o4⟩ := ih s hs hfit2
        rw [habs] at o1 o2
        have hp1 : s.pop.1 = none := by rw [hpop]
        have hp2 : s.pop.2 = s := by rw [hpop]
        simp only [stackRun, lifoRun, hp1, hp2]
        exact ⟨by rw [o1], o2, o3, o4⟩
      | cons x xs =>
        obtain ⟨p1, p2, p3, p4⟩ := Stack.pop_cons s x xs hs habs
        have hfit2 : fitsUnder s.pop.2.capacity s.pop.2.abs.length rest = true := by
          rw [p4, p3]
          rw [habs] at hfit
          simpa using hfit
        obtain ⟨o1, o2, o3, o4⟩ := ih s.pop.2 p2 hfit2
        simp only [stackRun, lifoRun]
        refine ⟨?_, ?_, o3, o4.trans p4⟩
        · rw [p1, o1, p3]
        · rw [o2, p3]

theorem queueRun_fifo (ops : List (CollOp α)) :
    ∀ q : Queue α, q.inv → fitsUnder q.capacity q.abs.length ops = true →
      (queueRun q ops).2 = (fifoRun q.abs ops).2 ∧
      (queueRun q ops).1.abs = (fifoRun q.abs ops).1 ∧
      (queueRun q ops).1.inv ∧ (queueRun q ops).1.capacity = q.capacity := by
  induction ops with
  | nil =>
    intro q hq _
    refine ⟨?_, ?_, ?_, ?_⟩ <;> simp only [queueRun, fifoRun]
    exact hq
  | cons op rest ih =>
    intro q hq hfit
    cases op with
    | ins x =>
      simp only [fitsUnder, Bool.and_eq_true, decide_eq_true_eq] at hfit
      obtain ⟨hn, hfit'⟩ := hfit
      have hcnt : q.count < q.capacity := by
        have hl := queue_abs_length q
        omega
      obtain ⟨q', henq, hinv', habs', hcap'⟩ := q.enqueue_ok x hq hcnt
      have hfit2 : fitsUnder q'.capacity q'.abs.length rest = true := by
        rw [hcap', habs']
        simpa using hfit'
      obtain ⟨o1, o2, o3, o4⟩ := ih q' hinv' hfit2
      simp only [queueRun, fifoRun, henq]
      rw [← habs']
      exact ⟨o1, o2, o3, o4.trans hcap'⟩
    | del =>
      simp only [fitsUnder] at hfit
      cases habs : q.abs with
      | nil =>
        have hcnt : q.count = 0 := by
          have hl := queue_abs_length q
          rw [habs] at hl
          simpa using hl.symm
        have hdeq := Queue.dequeue_empty q hcnt
        have hfit2 : fitsUnder q.capacity q.abs.length rest = true := by
          rw [habs] at hfit ⊢
          simpa using hfit
        obtain ⟨o1, o2, o3, o4⟩ := ih q hq hfit2
        rw [habs] at o1 o2
        have hp1 : q.dequeue.1 = none := by rw [hdeq]
        have hp2 : q.dequeue.2 = q := by rw [hdeq]
        simp only [queueRun, fifoRun, hp1, hp2]
        exact ⟨by rw [o1], o2, o3, o4⟩
      | cons x xs =>
        obtain ⟨p1, p2, p3, p4⟩ := Queue.dequeue_cons q x xs hq habs
        have hfit2 : fitsUnder q.dequeue.2.capacity q.dequeue.2.abs.length rest = true := by
          rw [p4, p3]
          rw [habs] at hfit
          simpa using hfit
        obtain ⟨o1, o2, o3, o4⟩ := ih q.dequeue.2 p2 hfit2
        simp only [queueRun, fifoRun]
        refine ⟨?_, ?_, o3, o4.trans p4⟩
        · rw [p1, o1, p3]
        · rw [o2, p3]

/-- C7: across every interleaving of push/pop on the `Stack`, and of
enqueue/dequeue on the circular `Queue`, that stays within the configured
capacity, the values returned by pop agree with the ideal LIFO reference and
the values returned by dequeue agree with the ideal FIFO reference — from any
well-formed starting state, wrapped circular states included. -/
theorem stack_lifo_queue_fifo :
    (∀ (s : Stack α) (ops : List (CollOp α)), s.inv →
      fitsUnder s.capacity s.abs.length ops = true →
      (stackRun s ops).2 = (lifoRun s.abs ops).2 ∧
      (stackRun s ops).1.abs = (lifoRun s.abs ops).1) ∧
    (∀ (q : Queue α) (ops : List (CollOp α)), q.inv →
      fitsUnder q.capacity q.abs.length ops = true →
      (queueRun q ops).2 = (fifoRun q.abs ops).2 ∧
      (queueRun q ops).1.abs = (fifoRun q.abs ops).1) := by
  constructor
  · intro s ops hs hfit
    obtain ⟨o1, o2, _, _⟩ := stackRun_lifo ops s hs hfit
    exact ⟨o1, o2⟩
  · intro q ops hq hfit
    obtain ⟨o1, o2, _, _⟩ := queueRun_fifo ops q hq hfit
    exact ⟨o1, o2⟩

/-- C7 witness: a concrete push/push/pop/pop run returns last-in first, and a
concrete enqueue/dequeue run on an already wrapped circular queue returns
front-to-rear order across the wraparound. -/
theorem stack_lifo_queue_fifo_witness :
    (stackRun (Stack.new Nat 2)
      [CollOp.ins (some 4), CollOp.ins (some 7), CollOp.del, CollOp.del]).2 =
      [some 7, some 4] ∧
    (queueRun (Queue.mk 3 [some 9, none, some 8] 2 0 2)
      [CollOp.ins (some 5), CollOp.del, CollOp.del, CollOp.del]).2 =
      [some 8, some 9, some 5] := by
  constructor
  · have h := (stack_lifo_queue_fifo (α := Nat)).1 (Stack.new Nat 2)
      [CollOp.ins (some 4), CollOp.ins (some 7), CollOp.del, CollOp.del]
      (by decide) (by decide)
    rw [h.1]
    decide
  · have h := (stack_lifo_queue_fifo (α := Nat)).2 (Queue.mk 3 [some 9, none, some 8] 2 0 2)
      [CollOp.ins (some 5), CollOp.del, CollOp.del, CollOp.del]
      (by decide) (by decide)
    rw [h.1]
    decide

/-! ### C3: neighbor iteration order after add_adjacent_zone -/

/-- C3 counterexample: after `add_adjacent_zone` of zone `1` and then zone `2`,
iterating the adjacency list yields `[2, 1]` — not the insertion order
`[1, 2]` — because each new `AdjacencyNode` is linked at the head. -/
theorem neighbor_iteration_order_cex :
    ((AdjacencyList.new Nat).add_all [1, 2]).get_adjacent_zones = [2, 1] ∧
    ((AdjacencyList.new Nat).add_all [1, 2]).get_adjacent_zones ≠ [1, 2] := by
  decide

theorem add_all_nodes [DecidableEq α] (l : List α) :
    ∀ a : AdjacencyList α, l.Nodup → (∀ z ∈ l, z ∉ a.nodes) →
      (a.add_all l).nodes = l.reverse ++ a.nodes := by
  induction l with
  | nil =>
    intro a _ _
    simp [AdjacencyList.add_all]
  | cons z zs ih =>
    intro a hnd hdisj
    have hz : ¬ a.is_adjacent z = true := by
      simp only [AdjacencyList.is_adjacent, decide_eq_true_eq]
      exact hdisj z (by simp)
    have hstep : a.add_all (z :: zs) =
        (AdjacencyList.mk (z :: a.nodes) (a.count + 1)).add_all zs := by
      simp only [AdjacencyList.add_all, List.foldl_cons, AdjacencyList.add_adjacent_zone,
        if_neg hz]
    rw [hstep, ih (AdjacencyList.mk (z :: a.nodes) (a.count + 1))
      (List.Nodup.of_cons hnd) ?_]
    · rw [List.reverse_cons, List.append_assoc]
      rfl
    · intro w hw
      simp only [List.mem_cons, not_or]
      constructor
      · intro hwz
        rw [hwz] at hw
        exact (List.nodup_cons.mp hnd).1 hw
      · exact hdisj w (List.mem_cons_of_mem z hw)

/-- C3 (amended): iterating a zone's adjacency list yields the neighbor ids in
reverse insertion order (most recently added first), since
`add_adjacent_zone` links each new node at the head of the chain; so for any
duplicate-free insertion sequence the neighbor scan visits zones in reverse
insertion order. -/
theorem neighbor_iteration_reverse_order [DecidableEq α] (l : List α) (h : l.Nodup) :
    ((AdjacencyList.new α).add_all l).get_adjacent_zones = l.reverse := by
  rw [AdjacencyList.get_adjacent_zones, add_all_nodes l (AdjacencyList.new α) h
    (by intro z _; simp [AdjacencyList.new])]
  simp [AdjacencyList.new]

/-- C3 witness. -/
theorem neighbor_iteration_reverse_order_witness :
    ((AdjacencyList.new Nat).add_all [1, 2, 3]).get_adjacent_zones = [3, 2, 1] :=
  (neighbor_iteration_reverse_order [1, 2, 3] (by decide)).trans (by decide)

/-! ### C8: get_recent / get_recent_operations -/

theorem Stack.get_recent_spec (s : Stack α) (n : Int) (h : s.inv) :
    s.get_recent n = s.abs.take (min n s.size).toNat := by
  obtain ⟨h1, h2, h3⟩ := h
  unfold Stack.size
  rw [Stack.get_recent]
  by_cases hcase : n ≤ 0 ∨ s.top < 0
  · rw [if_pos hcase]
    rcases hcase with hn | ht
    · have hz : (min n (s.top + 1)).toNat = 0 := by omega
      rw [hz, List.take_zero]
    · have habs : s.abs = [] := by
        unfold Stack.abs
        have hz : (s.top + 1).toNat = 0 := by omega
        rw [hz]
        simp
      rw [habs]
      simp
  · rw [if_neg hcase]
    push_neg at hcase
    obtain ⟨hn, ht⟩ := hcase
    have hm : (s.top + 1).toNat ≤ s.items.length := by omega
    have habs : s.abs = (List.range (s.top + 1).toNat).map
        (fun i => s.items.getD ((s.top + 1).toNat - 1 - i) none) :=
      reverse_take_eq_map_getD s.items (s.top + 1).toNat none hm
    rw [habs, ← List.map_take, List.take_range, inf_eq_min]
    have hmin : min (min n (s.top + 1)).toNat (s.top + 1).toNat =
        (min n (s.top + 1)).toNat := by omega
    rw [hmin]
    apply List.map_congr_left
    intro i hi
    have hilt : i < (min n (s.top + 1)).toNat := List.mem_range.mp hi
    congr 1
    omega

/-- C8: `get_recent(n)`, exposed on the rollback manager as
`get_recent_operations(n)`, returns the top `min(n, size)` stack entries most
recent first; it is a pure read — it takes the manager and returns only a
list, leaving the stack untouched. -/
theorem get_recent_operations_spec (m : RollbackManager) (n : Int)
    (h : m.operation_history.inv) :
    m.get_recent_operations n =
      m.operation_history.abs.take (min n m.operation_history.size).toNat :=
  Stack.get_recent_spec m.operation_history n h

/-- C8 witness: peeking five entries of a two-entry history returns both, the
most recent (the occupy) first. -/
theorem get_recent_operations_spec_witness :
    mgrW.get_recent_operations 5 = [some opOccupyW, some opAllocW] :=
  (get_recent_operations_spec mgrW 5 (by decide)).trans (by decide)

/-! ### C2: recording of operations and the full-history case -/

/-- C2 counterexample: with a full one-slot history, a further successful
mutating call's `record_operation` returns the manager unchanged — the new
Operation is not on the stack, yet the call reports no failure (the
`try/except: pass` swallowed the overflow). -/
theorem record_operation_silent_drop_cex :
    (RollbackManager.mk (Stack.mk 1 [some opAllocW] 0) 1).record_operation "occupy"
        reqW (some false) "ALLOCATED" =
      RollbackManager.mk (Stack.mk 1 [some opAllocW] 0) 1 := by
  decide

/-- C2 (amended): while the history stack is below capacity,
`record_operation` pushes exactly one Operation (the pre-mutation snapshot)
onto the rollback stack; at capacity, `Stack.push` raises but
`record_operation` catches the exception and silently drops the Operation,
returning the manager unchanged with no failure reported to the caller. -/
theorem record_operation_spec (m : RollbackManager) (t : String) (r : Request)
    (ss : Option Bool) (rs : String) (h : m.operation_history.inv) :
    (m.operation_history.size < (m.operation_history.capacity : Int) →
      (m.record_operation t r ss rs).operation_history.abs =
        some (RollbackManager.make_op t r ss rs) :: m.operation_history.abs) ∧
    ((m.operation_history.capacity : Int) ≤ m.operation_history.size →
      m.record_operation t r ss rs = m) := by
  constructor
  · intro hlt
    obtain ⟨s', hpush, hinv', habs', hcap'⟩ :=
      m.operation_history.push_ok (some (RollbackManager.make_op t r ss rs)) h hlt
    show (RollbackManager.record_operation m t r ss rs).operation_history.abs = _
    rw [RollbackManager.record_operation, hpush]
    exact habs'
  · intro hge
    have hpush := m.operation_history.push_full
      (some (RollbackManager.make_op t r ss rs)) hge
    rw [RollbackManager.record_operation, hpush]

/-- C2 witness: recording onto a fresh two-slot history pushes exactly the one
built Operation. -/
theorem record_operation_spec_witness :
    ((RollbackManager.new 2).record_operation "allocate" reqW (some true)
      "REQUESTED").operation_history.abs = [some opAllocW] := by
  have h := record_operation_spec (RollbackManager.new 2) "allocate" reqW
    (some true) "REQUESTED" (by decide)
  rw [h.1 (by decide)]
  decide

/-! ### C4 and C5: rollback -/

theorem rollbackLoop_spec :
    ∀ (n : Nat) (st : Stack Operation) (sys : SystemState)
      (acc : List (String × String)) (ops : List Operation),
      st.inv → st.abs = ops.map some → n ≤ ops.length →
      (rollbackLoop n st sys acc).1 =
        acc ++ (ops.take n).map (fun op => (op.type, op.request_id)) ∧
      (rollbackLoop n st sys acc).2.1.abs = (ops.drop n).map some ∧
      (rollbackLoop n st sys acc).2.1.inv ∧
      (rollbackLoop n st sys acc).2.1.capacity = st.capacity ∧
      (rollbackLoop n st sys acc).2.2 =
        (ops.take n).foldl (fun s op => applyInverse op s) sys := by
  intro n
  induction n with
  | zero =>
    intro st sys acc ops hinv habs _
    exact ⟨(List.append_nil acc).symm, habs, hinv, rfl, rfl⟩
  | succ n ih =>
    intro st sys acc ops hinv habs hlen
    obtain ⟨op, rest, hops⟩ : ∃ op rest, ops = op :: rest := by
      cases ops with
      | nil => simp at hlen
      | cons a b => exact ⟨a, b, rfl⟩
    subst hops
    have habs' : st.abs = some op :: rest.map some := by simpa using habs
    obtain ⟨p1, p2, p3, p4⟩ := Stack.pop_cons st (some op) (rest.map some) hinv habs'
    simp only [rollbackLoop, p1]
    obtain ⟨o1, o2, o3, o4, o5⟩ := ih st.pop.2 (applyInverse op sys)
      (acc ++ [(op.type, op.request_id)]) rest p2 p3 (by simpa using hlen)
    refine ⟨?_, ?_, o3, o4.trans p4, ?_⟩
    · rw [o1, List.take_succ_cons, List.map_cons, List.append_assoc]
      rfl
    · rw [o2, List.drop_succ_cons]
    · rw [o5, List.take_succ_cons, List.foldl_cons]

/-- C4: for every `k ≥ 0` and every rollback-stack state (whose recorded
entries are genuine operation dicts), `rollback(k)` pops exactly
`min(k, stack.size)` Operations, applies each inverse in pop order (most
recent first, as the fold over the popped prefix), and returns the undone
`(type, request_id)` pairs in exactly the order applied. -/
theorem rollback_spec (m : RollbackManager) (k : Int) (sys : SystemState)
    (ops : List Operation) (hinv : m.operation_history.inv) (hk : 0 ≤ k)
    (habs : m.operation_history.abs = ops.map some) :
    (m.rollback k sys).1 =
      (ops.take (min k m.operation_history.size).toNat).map
        (fun op => (op.type, op.request_id)) ∧
    (m.rollback k sys).2.1.operation_history.abs =
      (ops.drop (min k m.operation_history.size).toNat).map some ∧
    (m.rollback k sys).2.1.operation_history.inv ∧
    (m.rollback k sys).2.2 =
      (ops.take (min k m.operation_history.size).toNat).foldl
        (fun s op => applyInverse op s) sys := by
  have hlen_abs := stack_abs_length m.operation_history hinv
  have hoplen : ops.length = (m.operation_history.top + 1).toNat := by
    rw [← hlen_abs, habs]
    simp
  obtain ⟨hh1, hh2, hh3⟩ := hinv
  rw [RollbackManager.rollback]
  by_cases hcond : k ≤ 0 ∨ m.operation_history.is_empty = true
  · rw [if_pos hcond]
    have h0 : (min k m.operation_history.size).toNat = 0 := by
      unfold Stack.size
      rcases hcond with hk0 | hemp
      · omega
      · have : m.operation_history.top < 0 := by
          simpa [Stack.is_empty] using hemp
        omega
    rw [h0]
    exact ⟨rfl, habs, ⟨hh1, hh2, hh3⟩, rfl⟩
  · rw [if_neg hcond]
    have hNle : (min k m.operation_history.size).toNat ≤ ops.length := by
      unfold Stack.size
      omega
    obtain ⟨o1, o2, o3, o4, o5⟩ := rollbackLoop_spec
      (min k m.operation_history.size).toNat m.operation_history sys [] ops
      ⟨hh1, hh2, hh3⟩ habs hNle
    exact ⟨by rw [o1, List.nil_append], o2, o3, o5⟩

/-- C4 witness: with an allocate then an occupy on the history, `rollback(1)`
undoes exactly the occupy, reverts the request to ALLOCATED (slot stays
consumed), reports `[("occupy", "R1")]`, and leaves the allocate on the stack. -/
theorem rollback_spec_witness :
    (mgrW.rollback 1 sysW).1 = [("occupy", "R1")] ∧
    (mgrW.rollback 1 sysW).2.2 =
      SystemState.mk [("R1", "ALLOCATED")] [("S1", false)] ∧
    (mgrW.rollback 1 sysW).2.1.operation_history.abs = [some opAllocW] := by
  have h := rollback_spec mgrW 1 sysW [opOccupyW, opAllocW] (by decide) (by decide)
    (by decide)
  refine ⟨?_, ?_, ?_⟩
  · rw [h.1]
    decide
  · rw [h.2.2.2]
    decide
  · rw [h.2.1]
    decide

/-- C5 counterexample: `rollback(-1)` on a manager with pending history
returns the plain empty list with nothing changed — exactly the value a
legitimate rollback with nothing to undo returns (here `rollback(3)` on an
empty history) — and no `InvalidArgument` outcome exists anywhere in the
result. -/
theorem rollback_negative_plain_empty_cex :
    (mgrW.rollback (-1) sysW).1 = [] ∧
    (mgrW.rollback (-1) sysW).2.1 = mgrW ∧
    (mgrW.rollback (-1) sysW).2.2 = sysW ∧
    ((RollbackManager.new 5).rollback 3 sysW).1 = [] := by
  decide

/-- C5 (amended): a negative (malformed) rollback count takes the
`k <= 0 or empty` early return: the call yields the plain empty list and
leaves the manager and system untouched — indistinguishable from a legitimate
zero-operation rollback; no typed `InvalidArgument` result is produced. -/
theorem rollback_negative_returns_empty (m : RollbackManager) (k : Int)
    (sys : SystemState) (h : k < 0) :
    m.rollback k sys = ([], m, sys) := by
  rw [RollbackManager.rollback, if_pos (Or.inl (le_of_lt h))]

/-- C5 witness. -/
theorem rollback_negative_returns_empty_witness :
    mgrW.rollback (-2) sysW = ([], mgrW, sysW) :=
  rollback_negative_returns_empty mgrW (-2) sysW (by decide)

/-! ### C10: Array.remove -/

theorem drop_eq_getD_cons {beta : Type} (l : List beta) (n : Nat) (d : beta)
    (h : n < l.length) : l.drop n = l.getD n d :: l.drop (n + 1) := by
  rw [List.getD_eq_getElem l d h]
  exact List.drop_eq_getElem_cons h

theorem firstIdx_none {beta : Type} [DecidableEq beta] (l : List beta) (x : beta) :
    firstIdx l x = none ↔ x ∉ l := by
  induction l with
  | nil => simp [firstIdx]
  | cons y ys ih =>
    by_cases hyx : y = x
    · simp [firstIdx, hyx]
    · rw [firstIdx, if_neg hyx, List.mem_cons, not_or]
      constructor
      · intro hmap
        have hys : firstIdx ys x = none := by
          cases hfi : firstIdx ys x with
          | none => rfl
          | some j => rw [hfi] at hmap; simp at hmap
        exact ⟨fun hxy => hyx hxy.symm, ih.mp hys⟩
      · intro hpair
        rw [ih.mpr hpair.2]
        rfl

theorem firstIdx_some {beta : Type} [DecidableEq beta] (l : List beta) (x : beta) :
    ∀ j : Nat, firstIdx l x = some j →
      j < l.length ∧ eraseFirst l x = l.take j ++ l.drop (j + 1) := by
  induction l with
  | nil =>
    intro j hj
    simp [firstIdx] at hj
  | cons y ys ih =>
    intro j hj
    by_cases hyx : y = x
    · rw [firstIdx, if_pos hyx] at hj
      injection hj with hj0
      subst hj0
      refine ⟨by simp, ?_⟩
      rw [eraseFirst, if_pos hyx]
      simp
    · rw [firstIdx, if_neg hyx] at hj
      cases hfi : firstIdx ys x with
      | none => rw [hfi] at hj; simp at hj
      | some j' =>
        rw [hfi] at hj
        simp only [Option.map_some'] at hj
        injection hj with hj1
        obtain ⟨hlt, herase⟩ := ih j' hfi
        subst hj1
        refine ⟨by simpa using Nat.succ_lt_succ hlt, ?_⟩
        rw [eraseFirst, if_neg hyx, herase, List.take_succ_cons, List.drop_succ_cons]
        rfl

theorem findFrom_eq_aux [DecidableEq α] (a : Arr α) (x : Option α)
    (hlen : a.size ≤ a.items.length) :
    ∀ (fuel i : Nat), a.size - i ≤ fuel →
      a.findFrom x i = (firstIdx (a.abs.drop i) x).map (fun j => j + i) := by
  have habslen : a.abs.length = a.size := by
    rw [Arr.abs, List.length_take]
    omega
  intro fuel
  induction fuel with
  | zero =>
    intro i hi
    rw [Arr.findFrom, dif_neg (by omega)]
    rw [List.drop_eq_nil_of_le (by omega)]
    rfl
  | succ fuel ih =>
    intro i hi
    by_cases hlt : i < a.size
    · rw [Arr.findFrom, dif_pos hlt]
      have hdrop : a.abs.drop i = a.items.getD i none :: a.abs.drop (i + 1) := by
        have hilt : i < a.abs.length := by omega
        rw [drop_eq_getD_cons a.abs i none hilt]
        congr 1
        show (a.items.take a.size).getD i none = a.items.getD i none
        rw [List.getD_eq_getElem _ _ (by exact hilt), List.getElem_take,
          List.getD_eq_getElem a.items none (by omega)]
      rw [hdrop]
      by_cases heq : a.items.getD i none = x
      · rw [if_pos heq, firstIdx, if_pos heq]
        simp
      · rw [if_neg heq, firstIdx, if_neg heq, ih (i + 1) (by omega), Option.map_map]
        cases firstIdx (a.abs.drop (i + 1)) x with
        | none => rfl
        | some j =>
          simp only [Option.map_some', Function.comp_apply]
          congr 1
          omega
    · rw [Arr.findFrom, dif_neg hlt]
      rw [List.drop_eq_nil_of_le (by omega)]
      rfl

theorem findFrom_spec [DecidableEq α] (a : Arr α) (x : Option α)
    (hlen : a.size ≤ a.items.length) :
    a.findFrom x 0 = firstIdx a.abs x := by
  rw [findFrom_eq_aux a x hlen a.size 0 (by omega), List.drop_zero]
  cases firstIdx a.abs x with
  | none => rfl
  | some j => simp

theorem shiftLeft_aux :
    ∀ (fuel : Nat) (l : List (Option α)) (j stop : Nat),
      stop - j ≤ fuel → stop < l.length → j ≤ stop →
      shiftLeft l j stop = l.take j ++ (l.drop (j + 1)).take (stop - j) ++ l.drop stop := by
  intro fuel
  induction fuel with
  | zero =>
    intro l j stop hf hstop hj
    have hjs : j = stop := by omega
    subst hjs
    rw [shiftLeft, if_neg (by omega), Nat.sub_self, List.take_zero, List.append_nil,
      List.take_append_drop]
  | succ fuel ih =>
    intro l j stop hf hstop hj
    by_cases hlt : j < stop
    · rw [shiftLeft, if_pos hlt]
      rw [ih (l.set j (l.getD (j + 1) none)) (j + 1) stop (by omega) (by simpa using hstop)
        (by omega)]
      rw [take_set_succ l j (l.getD (j + 1) none) (by omega),
        drop_set_of_lt l j (j + 2) (l.getD (j + 1) none) (by omega),
        drop_set_of_lt l j stop (l.getD (j + 1) none) hlt]
      have hdrop : l.drop (j + 1) = l.getD (j + 1) none :: l.drop (j + 2) :=
        drop_eq_getD_cons l (j + 1) none (by omega)
      have hsub : stop - j = (stop - (j + 1)) + 1 := by omega
      rw [hdrop, hsub, List.take_succ_cons]
      simp [List.append_assoc]
    · have hjs : j = stop := by omega
      subst hjs
      rw [shiftLeft, if_neg (by omega), Nat.sub_self, List.take_zero, List.append_nil,
        List.take_append_drop]

/-- C10: `Array.remove(item)` removes exactly the first occurrence, shifting
the later elements left and preserving their relative order (the logical
contents become `eraseFirst`); when the item is absent it returns `False` and
leaves size and contents completely unchanged. -/
theorem arr_remove_spec [DecidableEq α] (a : Arr α) (x : Option α) (h : a.inv) :
    (x ∉ a.abs → a.remove x = (a, false)) ∧
    (x ∈ a.abs →
      (a.remove x).2 = true ∧
      (a.remove x).1.abs = eraseFirst a.abs x ∧
      (a.remove x).1.size = a.size - 1 ∧
      (a.remove x).1.inv ∧ (a.remove x).1.capacity = a.capacity) := by
  obtain ⟨h1, h2⟩ := h
  have hlen : a.size ≤ a.items.length := by omega
  have habslen : a.abs.length = a.size := by
    rw [Arr.abs, List.length_take]
    omega
  have hfind := findFrom_spec a x hlen
  constructor
  · intro hnot
    have hnone : firstIdx a.abs x = none := (firstIdx_none _ _).mpr hnot
    rw [Arr.remove, hfind, hnone]
  · intro hmem
    obtain ⟨j, hj⟩ : ∃ j, firstIdx a.abs x = some j := by
      cases hfi : firstIdx a.abs x with
      | none => exact absurd ((firstIdx_none _ _).mp hfi) (by simpa using hmem)
      | some j => exact ⟨j, rfl⟩
    obtain ⟨hjlt, herase⟩ := firstIdx_some a.abs x j hj
    have hjsz : j < a.size := by omega
    have hs1 : 1 ≤ a.size := by omega
    have hstop : a.size - 1 < a.items.length := by omega
    have hshift := shiftLeft_aux (a.size - 1 - j) a.items j (a.size - 1) (by omega) hstop
      (by omega)
    rw [Arr.remove, hfind, hj]
    have hlenshift : (shiftLeft a.items j (a.size - 1)).length = a.items.length := by
      rw [hshift]
      simp only [List.length_append, List.length_take, List.length_drop]
      omega
    refine ⟨rfl, ?_, rfl, ⟨?_, ?_⟩, rfl⟩
    · show ((shiftLeft a.items j (a.size - 1)).set (a.size - 1) none).take (a.size - 1) =
        eraseFirst a.abs x
      rw [take_set_of_le _ _ _ _ (Nat.le_refl _), hshift, herase]
      have htj : a.abs.take j = a.items.take j := by
        rw [Arr.abs, List.take_take, inf_eq_min, Nat.min_eq_left (by omega)]
      have hdj : a.abs.drop (j + 1) = (a.items.drop (j + 1)).take (a.size - 1 - j) := by
        rw [Arr.abs, List.drop_take]
        congr 1
        omega
      rw [htj, hdj]
      apply List.take_left'
      simp only [List.length_append, List.length_take, List.length_drop]
      omega
    · show ((shiftLeft a.items j (a.size - 1)).set (a.size - 1) none).length = a.capacity
      rw [List.length_set, hlenshift, h1]
    · show a.size - 1 ≤ a.capacity
      omega

/-! ### Hash table chain lemmas -/

theorem chainReplace_none_iff [DecidableEq kappa] (b : List (kappa × Option V))
    (k : kappa) (v : Option V) :
    chainReplace b k v = none ↔ k ∉ b.map Prod.fst := by
  induction b with
  | nil => simp [chainReplace]
  | cons p rest ih =>
    obtain ⟨k0, v0⟩ := p
    by_cases hk : k0 = k
    · simp [chainReplace, hk]
    · simp only [chainReplace, if_neg hk, List.map_cons, List.mem_cons, not_or]
      rw [Option.map_eq_none', ih]
      constructor
      · intro hmm
        exact ⟨fun hkk => hk hkk.symm, hmm⟩
      · intro hpair
        exact hpair.2

theorem chainReplace_some [DecidableEq kappa] (b : List (kappa × Option V))
    (k : kappa) (v : Option V) :
    ∀ b', chainReplace b k v = some b' →
      chainGet b' k = v ∧ (∀ k', k' ≠ k → chainGet b' k' = chainGet b k') ∧
      b'.length = b.length ∧ b'.map Prod.fst = b.map Prod.fst := by
  induction b with
  | nil =>
    intro b' hb
    simp [chainReplace] at hb
  | cons p rest ih =>
    intro b' hb
    obtain ⟨k0, v0⟩ := p
    by_cases hk : k0 = k
    · rw [chainReplace, if_pos hk] at hb
      injection hb with hb0
      subst hb0
      refine ⟨by rw [chainGet, if_pos hk], ?_, by simp, by simp⟩
      intro k' hne
      have hne0 : ¬ k0 = k' := by
        intro hkk
        exact hne (by rw [← hkk, hk])
      rw [chainGet, if_neg hne0, chainGet, if_neg hne0]
    · rw [chainReplace, if_neg hk] at hb
      cases hcr : chainReplace rest k v with
      | none => rw [hcr] at hb; simp at hb
      | some r =>
        rw [hcr] at hb
        simp only [Option.map_some'] at hb
        injection hb with hb0
        subst hb0
        obtain ⟨g1, g2, g3, g4⟩ := ih r hcr
        refine ⟨by rw [chainGet, if_neg hk]; exact g1, ?_, by simp [g3], by simp [g4]⟩
        intro k' hne
        by_cases hk0 : k0 = k'
        · rw [chainGet, if_pos hk0, chainGet, if_pos hk0]
        · rw [chainGet, if_neg hk0, chainGet, if_neg hk0]
          exact g2 k' hne

theorem chainDelete_some [DecidableEq kappa] (b : List (kappa × Option V)) (k : kappa) :
    ∀ b', chainDelete b k = some b' → b'.length + 1 = b.length ∧ b'.Sublist b := by
  induction b with
  | nil =>
    intro b' hb
    simp [chainDelete] at hb
  | cons p rest ih =>
    intro b' hb
    obtain ⟨k0, v0⟩ := p
    by_cases hk : k0 = k
    · rw [chainDelete, if_pos hk] at hb
      injection hb with hb0
      subst hb0
      exact ⟨by simp, List.sublist_cons_self _ _⟩
    · rw [chainDelete, if_neg hk] at hb
      cases hcd : chainDelete rest k with
      | none => rw [hcd] at hb; simp at hb
      | some r =>
        rw [hcd] at hb
        simp only [Option.map_some'] at hb
        injection hb with hb0
        subst hb0
        obtain ⟨g1, g2⟩ := ih r hcd
        exact ⟨by simpa using g1, List.Sublist.cons₂ _ g2⟩

/-! ### Hash table get/insert/delete lemmas -/

theorem hwinv_insert [DecidableEq kappa] (h : kappa → Nat) (t : HashTable kappa V)
    (k : kappa) (v : Option V) (hw : t.winv) : (t.insert h k v).winv := by
  obtain ⟨w1, w2⟩ := hw
  cases hcr : chainReplace (t.buckets.getD (hashIdx h t k) []) k v with
  | some b =>
    have heq : t.insert h k v = { t with buckets := t.buckets.set (hashIdx h t k) b } := by
      unfold HashTable.insert
      rw [hcr]
    rw [heq]
    exact ⟨by simpa using w1, w2⟩
  | none =>
    have heq : t.insert h k v = { t with buckets := t.buckets.set (hashIdx h t k) ((k, v) :: t.buckets.getD (hashIdx h t k) []), size := t.size + 1 } := by
      unfold HashTable.insert
      rw [hcr]
    rw [heq]
    exact ⟨by simpa using w1, w2⟩

theorem hget_insert_self [DecidableEq kappa] (h : kappa → Nat) (t : HashTable kappa V)
    (k : kappa) (v : Option V) (hw : t.winv) : (t.insert h k v).get h k = v := by
  obtain ⟨w1, w2⟩ := hw
  have hidx : hashIdx h t k < t.buckets.length := by
    rw [w1]
    exact Nat.mod_lt _ w2
  cases hcr : chainReplace (t.buckets.getD (hashIdx h t k) []) k v with
  | some b =>
    have heq : t.insert h k v = { t with buckets := t.buckets.set (hashIdx h t k) b } := by
      unfold HashTable.insert
      rw [hcr]
    rw [heq]
    show chainGet ((t.buckets.set (hashIdx h t k) b).getD (hashIdx h t k) []) k = v
    rw [getD_set_self _ _ _ _ hidx]
    exact (chainReplace_some _ k v b hcr).1
  | none =>
    have heq : t.insert h k v = { t with buckets := t.buckets.set (hashIdx h t k) ((k, v) :: t.buckets.getD (hashIdx h t k) []), size := t.size + 1 } := by
      unfold HashTable.insert
      rw [hcr]
    rw [heq]
    show chainGet ((t.buckets.set (hashIdx h t k) ((k, v) :: t.buckets.getD (hashIdx h t k) [])).getD (hashIdx h t k) []) k = v
    rw [getD_set_self _ _ _ _ hidx, chainGet, if_pos rfl]

theorem hget_insert_other [DecidableEq kappa] (h : kappa → Nat) (t : HashTable kappa V)
    (k k' : kappa) (v : Option V) (hw : t.winv) (hne : k' ≠ k) :
    (t.insert h k v).get h k' = t.get h k' := by
  obtain ⟨w1, w2⟩ := hw
  have hidx : hashIdx h t k < t.buckets.length := by
    rw [w1]
    exact Nat.mod_lt _ w2
  cases hcr : chainReplace (t.buckets.getD (hashIdx h t k) []) k v with
  | some b =>
    have heq : t.insert h k v = { t with buckets := t.buckets.set (hashIdx h t k) b } := by
      unfold HashTable.insert
      rw [hcr]
    rw [heq]
    show chainGet ((t.buckets.set (hashIdx h t k) b).getD (hashIdx h t k') []) k' =
      chainGet (t.buckets.getD (hashIdx h t k') []) k'
    by_cases hii : hashIdx h t k = hashIdx h t k'
    · rw [← hii, getD_set_self _ _ _ _ hidx]
      exact (chainReplace_some _ k v b hcr).2.1 k' hne
    · rw [getD_set_ne _ _ _ _ _ hii]
  | none =>
    have heq : t.insert h k v = { t with buckets := t.buckets.set (hashIdx h t k) ((k, v) :: t.buckets.getD (hashIdx h t k) []), size := t.size + 1 } := by
      unfold HashTable.insert
      rw [hcr]
    rw [heq]
    show chainGet ((t.buckets.set (hashIdx h t k) ((k, v) :: t.buckets.getD (hashIdx h t k) [])).getD (hashIdx h t k') []) k' =
      chainGet (t.buckets.getD (hashIdx h t k') []) k'
    by_cases hii : hashIdx h t k = hashIdx h t k'
    · rw [← hii, getD_set_self _ _ _ _ hidx, chainGet, if_neg (fun hkk => hne hkk.symm)]
    · rw [getD_set_ne _ _ _ _ _ hii]

theorem hsize_insert_of_mem [DecidableEq kappa] (h : kappa → Nat) (t : HashTable kappa V)
    (k : kappa) (v : Option V) (hi : t.hinv h) (hk : k ∈ t.keys) :
    (t.insert h k v).size = t.size := by
  obtain ⟨w1, w2, hsz, hplace, hnd⟩ := hi
  have hkb : k ∈ (t.buckets.getD (hashIdx h t k) []).map Prod.fst := by
    rw [HashTable.keys, List.mem_flatten] at hk
    obtain ⟨l, hl, hkl⟩ := hk
    rw [List.mem_map] at hl
    obtain ⟨b, hb, rfl⟩ := hl
    rw [List.mem_iff_getElem] at hb
    obtain ⟨i, hilt, rfl⟩ := hb
    rw [List.mem_map] at hkl
    obtain ⟨p, hp, hpk⟩ := hkl
    have hpi : h p.1 % t.capacity = i := hplace i hilt p (by
      rw [List.getD_eq_getElem _ _ hilt]
      exact hp)
    have hidxi : hashIdx h t k = i := by
      rw [hashIdx, ← hpk, hpi]
    rw [hidxi, List.getD_eq_getElem _ _ hilt, List.mem_map]
    exact ⟨p, hp, hpk⟩
  cases hcr : chainReplace (t.buckets.getD (hashIdx h t k) []) k v with
  | none => exact absurd ((chainReplace_none_iff _ k v).mp hcr) (by simpa using hkb)
  | some b =>
    have heq : t.insert h k v = { t with buckets := t.buckets.set (hashIdx h t k) b } := by
      unfold HashTable.insert
      rw [hcr]
    rw [heq]

theorem hget_insert_all [DecidableEq kappa] (h : kappa → Nat)
    (ps : List (kappa × Option V)) (k : kappa) :
    ∀ t : HashTable kappa V, t.winv →
      (t.insert_all h ps).get h k = (lastVal ps k).getD (t.get h k) := by
  induction ps with
  | nil =>
    intro t _
    rfl
  | cons p ps ih =>
    intro t hw
    have hstep : t.insert_all h (p :: ps) = (t.insert h p.1 p.2).insert_all h ps := by
      simp only [HashTable.insert_all, List.foldl_cons]
    rw [hstep, ih (t.insert h p.1 p.2) (hwinv_insert h t p.1 p.2 hw), lastVal]
    cases hlv : lastVal ps k with
    | some w => rfl
    | none =>
      by_cases hpk : p.1 = k
      · rw [if_pos hpk]
        show (t.insert h p.1 p.2).get h k = p.2
        rw [hpk]
        exact hget_insert_self h t k p.2 hw
      · rw [if_neg hpk]
        show (t.insert h p.1 p.2).get h k = t.get h k
        exact hget_insert_other h t p.1 k p.2 hw (fun hkk => hpk hkk.symm)

/-! ### C6: hash map upsert behaviour -/

/-- C6: `insert(key, value)` upserts — after an insert, `get(key)` returns the
inserted value while other keys are untouched; re-inserting an existing key
leaves the reported size unchanged; and across any sequence of inserts,
`get(key)` returns the most recently inserted value for that key. -/
theorem hash_insert_upsert [DecidableEq kappa] (h : kappa → Nat) (t : HashTable kappa V)
    (k k' : kappa) (v : Option V) (ps : List (kappa × Option V)) (hi : t.hinv h) :
    (t.insert h k v).get h k = v ∧
    (k' ≠ k → (t.insert h k v).get h k' = t.get h k') ∧
    (k ∈ t.keys → (t.insert h k v).size = t.size) ∧
    (t.insert_all h ps).get h k = (lastVal ps k).getD (t.get h k) := by
  have hw : t.winv := ⟨hi.1, hi.2.1⟩
  exact ⟨hget_insert_self h t k v hw, fun hne => hget_insert_other h t k k' v hw hne,
    fun hk => hsize_insert_of_mem h t k v hi hk, hget_insert_all h ps k t hw⟩

/-- C6 witness: on a concrete table holding key 1, an insert replaces the
value observed by `get`, leaves other keys and the size alone, and the last of
two successive inserts for the same key wins. -/
theorem hash_insert_upsert_witness :
    (htW.insert id 1 (some 9)).get id 1 = some 9 ∧
    (htW.insert id 1 (some 9)).get id 2 = none ∧
    (htW.insert id 1 (some 9)).size = 1 ∧
    (htW.insert_all id [(1, some 7), (1, some 8)]).get id 1 = some 8 := by
  have hh := hash_insert_upsert id htW 1 2 (some 9) [(1, some 7), (1, some 8)] (by decide)
  refine ⟨hh.1, ?_, ?_, ?_⟩
  · rw [hh.2.1 (by decide)]
    decide
  · rw [hh.2.2.1 (by decide)]
    decide
  · rw [hh.2.2.2]
    decide

/-! ### C9: the chained-table invariant -/

theorem hinv_insert [DecidableEq kappa] (h : kappa → Nat) (t : HashTable kappa V)
    (k : kappa) (v : Option V) (hi : t.hinv h) : (t.insert h k v).hinv h := by
  obtain ⟨w1, w2, hsz, hplace, hnd⟩ := hi
  have hidx : hashIdx h t k < t.buckets.length := by
    rw [w1]
    exact Nat.mod_lt _ w2
  cases hcr : chainReplace (t.buckets.getD (hashIdx h t k) []) k v with
  | some b =>
    obtain ⟨g1, g2, g3, g4⟩ := chainReplace_some _ k v b hcr
    have heq : t.insert h k v = { t with buckets := t.buckets.set (hashIdx h t k) b } := by
      unfold HashTable.insert
      rw [hcr]
    rw [heq]
    refine ⟨by simpa using w1, w2, ?_, ?_, ?_⟩
    · show t.size = ((t.buckets.set (hashIdx h t k) b).map List.length).sum
      have hsum := sum_map_set List.length t.buckets (hashIdx h t k) b [] hidx
      omega
    · intro i hi2 p hp
      show h p.1 % t.capacity = i
      by_cases hii : hashIdx h t k = i
      · subst hii
        rw [getD_set_self _ _ _ _ hidx] at hp
        have hp1 : p.1 ∈ (t.buckets.getD (hashIdx h t k) []).map Prod.fst := by
          rw [← g4]
          exact List.mem_map_of_mem _ hp
        rw [List.mem_map] at hp1
        obtain ⟨p', hp', hpp⟩ := hp1
        rw [← hpp]
        exact hplace (hashIdx h t k) hidx p' hp'
      · rw [getD_set_ne _ _ _ _ _ hii] at hp
        exact hplace i (by simpa using hi2) p hp
    · intro i hi2
      by_cases hii : hashIdx h t k = i
      · subst hii
        rw [getD_set_self _ _ _ _ hidx, g4]
        exact hnd (hashIdx h t k) hidx
      · rw [getD_set_ne _ _ _ _ _ hii]
        exact hnd i (by simpa using hi2)
  | none =>
    have hknot : k ∉ (t.buckets.getD (hashIdx h t k) []).map Prod.fst :=
      (chainReplace_none_iff _ k v).mp hcr
    have heq : t.insert h k v = { t with buckets := t.buckets.set (hashIdx h t k) ((k, v) :: t.buckets.getD (hashIdx h t k) []), size := t.size + 1 } := by
      unfold HashTable.insert
      rw [hcr]
    rw [heq]
    refine ⟨by simpa using w1, w2, ?_, ?_, ?_⟩
    · show t.size + 1 = ((t.buckets.set (hashIdx h t k) ((k, v) :: t.buckets.getD (hashIdx h t k) [])).map List.length).sum
      have hsum := sum_map_set List.length t.buckets (hashIdx h t k)
        ((k, v) :: t.buckets.getD (hashIdx h t k) []) [] hidx
      simp only [List.length_cons] at hsum
      omega
    · intro i hi2 p hp
      show h p.1 % t.capacity = i
      by_cases hii : hashIdx h t k = i
      · subst hii
        rw [getD_set_self _ _ _ _ hidx] at hp
        rcases List.mem_cons.mp hp with hpkv | hpmem
        · rw [hpkv]
          rfl
        · exact hplace (hashIdx h t k) hidx p hpmem
      · rw [getD_set_ne _ _ _ _ _ hii] at hp
        exact hplace i (by simpa using hi2) p hp
    · intro i hi2
      by_cases hii : hashIdx h t k = i
      · subst hii
        rw [getD_set_self _ _ _ _ hidx, List.map_cons, List.nodup_cons]
        exact ⟨hknot, hnd (hashIdx h t k) hidx⟩
      · rw [getD_set_ne _ _ _ _ _ hii]
        exact hnd i (by simpa using hi2)

theorem hinv_delete [DecidableEq kappa] (h : kappa → Nat) (t : HashTable kappa V)
    (k : kappa) (hi : t.hinv h) : ((t.delete h k).1).hinv h := by
  obtain ⟨w1, w2, hsz, hplace, hnd⟩ := hi
  have hidx : hashIdx h t k < t.buckets.length := by
    rw [w1]
    exact Nat.mod_lt _ w2
  cases hcd : chainDelete (t.buckets.getD (hashIdx h t k) []) k with
  | none =>
    have heq : (t.delete h k).1 = t := by
      unfold HashTable.delete
      rw [hcd]
    rw [heq]
    exact ⟨w1, w2, hsz, hplace, hnd⟩
  | some b =>
    obtain ⟨g1, g2⟩ := chainDelete_some _ k b hcd
    have heq : (t.delete h k).1 = { t with buckets := t.buckets.set (hashIdx h t k) b, size := t.size - 1 } := by
      unfold HashTable.delete
      rw [hcd]
    rw [heq]
    refine ⟨by simpa using w1, w2, ?_, ?_, ?_⟩
    · show t.size - 1 = ((t.buckets.set (hashIdx h t k) b).map List.length).sum
      have hsum := sum_map_set List.length t.buckets (hashIdx h t k) b [] hidx
      omega
    · intro i hi2 p hp
      show h p.1 % t.capacity = i
      by_cases hii : hashIdx h t k = i
      · subst hii
        rw [getD_set_self _ _ _ _ hidx] at hp
        exact hplace (hashIdx h t k) hidx p (g2.mem hp)
      · rw [getD_set_ne _ _ _ _ _ hii] at hp
        exact hplace i (by simpa using hi2) p hp
    · intro i hi2
      by_cases hii : hashIdx h t k = i
      · subst hii
        rw [getD_set_self _ _ _ _ hidx]
        exact List.Sublist.nodup (List.Sublist.map _ g2) (hnd (hashIdx h t k) hidx)
      · rw [getD_set_ne _ _ _ _ _ hii]
        exact hnd i (by simpa using hi2)

theorem hkeys_counts [DecidableEq kappa] (h : kappa → Nat) (t : HashTable kappa V)
    (hi : t.hinv h) :
    t.keys.length = t.size ∧ t.values.length = t.size ∧ t.items.length = t.size ∧
    t.keys.Nodup := by
  obtain ⟨w1, w2, hsz, hplace, hnd⟩ := hi
  refine ⟨?_, ?_, ?_, ?_⟩
  · rw [HashTable.keys, List.length_flatten, List.map_map, hsz]
    congr 1
    apply List.map_congr_left
    intro b _
    simp
  · rw [HashTable.values, List.length_flatten, List.map_map, hsz]
    congr 1
    apply List.map_congr_left
    intro b _
    simp
  · rw [HashTable.items, List.length_flatten, hsz]
  · rw [HashTable.keys, List.nodup_flatten]
    constructor
    · intro l hl
      rw [List.mem_map] at hl
      obtain ⟨b, hb, rfl⟩ := hl
      rw [List.mem_iff_getElem] at hb
      obtain ⟨i, hilt, rfl⟩ := hb
      have := hnd i hilt
      rwa [List.getD_eq_getElem _ _ hilt] at this
    · rw [List.pairwise_iff_get]
      intro i j hij a hai haj
      have hli : (t.buckets.map (fun b => b.map Prod.fst)).length = t.buckets.length := by
        simp
      have hib : (i : Nat) < t.buckets.length := by omega
      have hjb : (j : Nat) < t.buckets.length := by omega
      rw [List.get_eq_getElem, List.getElem_map] at hai haj
      have hmemi : a ∈ (t.buckets.getD (i : Nat) []).map Prod.fst := by
        rwa [List.getD_eq_getElem _ _ hib]
      have hmemj : a ∈ (t.buckets.getD (j : Nat) []).map Prod.fst := by
        rwa [List.getD_eq_getElem _ _ hjb]
      rw [List.mem_map] at hmemi hmemj
      obtain ⟨pi, hpi, hpik⟩ := hmemi
      obtain ⟨pj, hpj, hpjk⟩ := hmemj
      have hi2 := hplace (i : Nat) hib pi hpi
      have hj2 := hplace (j : Nat) hjb pj hpj
      rw [hpik] at hi2
      rw [hpjk] at hj2
      have : (i : Nat) = (j : Nat) := by omega
      have hij2 : (i : Nat) < (j : Nat) := hij
      omega

/-- C9: the chained hash table's invariant — reported `size` equals the total
number of key/value nodes reachable through the buckets and no key occurs in
more than one node — is preserved by every `insert` and `delete`; under it,
`keys()`, `values()` and `items()` each return exactly `size` entries and the
key list is duplicate-free. -/
theorem hash_table_invariant [DecidableEq kappa] (h : kappa → Nat) (t : HashTable kappa V)
    (k : kappa) (v : Option V) (hi : t.hinv h) :
    (t.insert h k v).hinv h ∧ ((t.delete h k).1).hinv h ∧
    t.keys.length = t.size ∧ t.values.length = t.size ∧ t.items.length = t.size ∧
    t.keys.Nodup := by
  obtain ⟨c1, c2, c3, c4⟩ := hkeys_counts h t hi
  exact ⟨hinv_insert h t k v hi, hinv_delete h t k hi, c1, c2, c3, c4⟩

/-- C9 witness: on a concrete well-formed table, inserting a fresh key and
deleting an existing one both preserve the invariant, and the enumerations
match the size. -/
theorem hash_table_invariant_witness :
    ((htW.insert id 2 (some 9)).hinv id) ∧ ((htW.delete id 2).1.hinv id) ∧
    htW.keys.length = htW.size ∧ htW.keys.Nodup := by
  have hh := hash_table_invariant id htW 2 (some 9) (by decide)
  exact ⟨hh.1, hh.2.1, hh.2.2.1, hh.2.2.2.2.2⟩

/-- C10 witness: removing `some 1` from contents `[some 1, some 2, some 1]`
drops only the first occurrence and keeps the order of the rest; removing an
absent value reports `False` and changes nothing. -/
theorem arr_remove_spec_witness :
    ((Arr.mk 4 [some 1, some 2, some 1, none] 3).remove (some 1)).1.abs =
      [some 2, some 1] ∧
    ((Arr.mk 4 [some 1, some 2, some 1, none] 3).remove (some 1)).2 = true ∧
    (Arr.mk 4 [some 1, some 2, some 1, none] 3).remove (some 5) =
      (Arr.mk 4 [some 1, some 2, some 1, none] 3, false) := by
  have ha := arr_remove_spec (Arr.mk 4 [some 1, some 2, some 1, none] 3) (some 1) (by decide)
  have hb := arr_remove_spec (Arr.mk 4 [some 1, some 2, some 1, none] 3) (some 5) (by decide)
  refine ⟨?_, ?_, ?_⟩
  · rw [(ha.2 (by decide)).2.1]
    decide
  · exact (ha.2 (by decide)).1
  · exact hb.1 (by decide)

end Parking
